import Mathlib

/-
Verification development for the expression-evaluation and plan-execution core
of an embeddable SQL engine (go-mysql-server).

The Go sources are shallowly embedded:
  * dynamically typed SQL values become the inductive `Value`;
  * fallible evaluation (`Eval(row) (interface{}, error)`) becomes
    `Except Err Value`;
  * Go `int64` arithmetic that may overflow is modelled by `wrap64`
    (two's-complement wraparound), and an out-of-range slice index, which is a
    Go runtime panic rather than a returned error, is modelled by the
    distinguished outcome `Err.sliceOutOfRange`;
  * the stateful cross-join row iterator becomes an explicit state record with
    a step function.
-/

namespace GoMysql

/-- A timestamp value (Go `time.Time`), modelled by the single component the
sources consume: its calendar year. -/
structure Timestamp where
  year : Int
deriving DecidableEq

/-- The dynamic SQL value domain: NULL, boolean, integer, UTF-8 text, byte
sequence, timestamp. -/
inductive Value where
  | vNull
  | vBool (b : Bool)
  | vInt (i : Int)
  | vText (s : String)
  | vBytes (bs : List Nat)
  | vDate (t : Timestamp)
deriving DecidableEq

/-- Error outcomes of evaluation. `sliceOutOfRange` models a Go runtime panic
raised by an out-of-range slice index (not an `error` return value). -/
inductive Err where
  | invalidArgNumber (expected : String) (actual : Nat)
  | invalidType (t : String)
  | conversion
  | unresolvedField (n : String)
  | childFail (n : Nat)
  | sliceOutOfRange
deriving DecidableEq

/-- A relational row: an ordered sequence of values. -/
abbrev Row := List Value

/-- Two's-complement wraparound of signed 64-bit integer arithmetic
(Go `int64` addition overflows deterministically by wrapping). -/
def wrap64 (i : Int) : Int := (i + 2 ^ 63) % 2 ^ 64 - 2 ^ 63

/-- Two's-complement truncation to a signed 32-bit integer (the Go
`int32(...)` cast). -/
def toInt32 (i : Int) : Int := (i + 2 ^ 31) % 2 ^ 32 - 2 ^ 31

/-- Modelled from the spec: the Type System's Int64 conversion
(`sql.Int64.Convert`). The Type System is an external collaborator whose code
is not among the sources; integer values convert to themselves, any other
value fails with a conversion error. -/
def int64Convert : Value → Except Err Int
  | .vInt i => .ok i
  | _ => .error .conversion

/-- Modelled from the spec: the Type System's Blob conversion
(`sql.Blob.Convert`). Byte sequences convert to themselves, text converts to
its UTF-8 bytes, any other value fails with a conversion error. -/
def blobConvert : Value → Except Err (List Nat)
  | .vBytes bs => .ok bs
  | .vText s => .ok (s.toUTF8.toList.map (fun b => b.toNat))
  | _ => .error .conversion

/-- Modelled from the spec: the Type System's Date conversion
(`sql.Date.Convert`). A timestamp converts to itself, any other value fails
with a conversion error. -/
def dateConvert : Value → Except Err Timestamp
  | .vDate t => .ok t
  | _ => .error .conversion

/-- The Go runtime type name of a value (`reflect.TypeOf(v).String()`), used
in `ErrInvalidType` messages. -/
def typeName : Value → String
  | .vNull => "nil"
  | .vBool _ => "bool"
  | .vInt _ => "int64"
  | .vText _ => "string"
  | .vBytes _ => "bytes"
  | .vDate _ => "time.Time"

/-- Modelled from the spec: Go's decoding of a byte sequence into its Unicode
codepoints (`[]rune(string(b))`). The decoder is Go runtime code, not part of
the sources; this model decodes well-formed UTF-8 and emits the replacement
character for ill-formed bytes. The fuel argument bounds recursion depth and
is instantiated with the list length. -/
def bytesToRunesAux : Nat → List Nat → List Char
  | 0, _ => []
  | _ + 1, [] => []
  | fuel + 1, b :: rest =>
    if b < 0x80 then
      Char.ofNat b :: bytesToRunesAux fuel rest
    else if 0xC2 ≤ b ∧ b ≤ 0xDF then
      match rest with
      | c1 :: rest1 =>
        if 0x80 ≤ c1 ∧ c1 ≤ 0xBF then
          Char.ofNat ((b - 0xC0) * 0x40 + (c1 - 0x80)) :: bytesToRunesAux fuel rest1
        else Char.ofNat 0xFFFD :: bytesToRunesAux fuel rest
      | [] => Char.ofNat 0xFFFD :: bytesToRunesAux fuel []
    else if 0xE0 ≤ b ∧ b ≤ 0xEF then
      match rest with
      | c1 :: c2 :: rest2 =>
        if 0x80 ≤ c1 ∧ c1 ≤ 0xBF ∧ 0x80 ≤ c2 ∧ c2 ≤ 0xBF then
          Char.ofNat ((b - 0xE0) * 0x1000 + (c1 - 0x80) * 0x40 + (c2 - 0x80)) ::
            bytesToRunesAux fuel rest2
        else Char.ofNat 0xFFFD :: bytesToRunesAux fuel rest
      | _ => Char.ofNat 0xFFFD :: bytesToRunesAux fuel rest
    else if 0xF0 ≤ b ∧ b ≤ 0xF4 then
      match rest with
      | c1 :: c2 :: c3 :: rest3 =>
        if 0x80 ≤ c1 ∧ c1 ≤ 0xBF ∧ 0x80 ≤ c2 ∧ c2 ≤ 0xBF ∧ 0x80 ≤ c3 ∧ c3 ≤ 0xBF then
          Char.ofNat
              ((b - 0xF0) * 0x40000 + (c1 - 0x80) * 0x1000 + (c2 - 0x80) * 0x40 +
                (c3 - 0x80)) ::
            bytesToRunesAux fuel rest3
        else Char.ofNat 0xFFFD :: bytesToRunesAux fuel rest
      | _ => Char.ofNat 0xFFFD :: bytesToRunesAux fuel rest
    else Char.ofNat 0xFFFD :: bytesToRunesAux fuel rest

/-- Modelled from the spec: `[]rune(string(b))` — see `bytesToRunesAux`. -/
def bytesToRunes (bs : List Nat) : List Char := bytesToRunesAux bs.length bs

/-- `const sniffLen = 8000` — the binary-content sniff window. -/
def sniffLen : Nat := 8000

/-- Embedding of `func isBinary(data []byte) bool`: truncate to the first
`sniffLen` bytes and report whether a zero byte occurs there
(`bytes.IndexByte(data, 0)` returns the length stand-in instead of `-1` when
absent). -/
def isBinaryData (data : List Nat) : Bool :=
  let d := if data.length > sniffLen then data.take sniffLen else data
  if d.indexOf 0 = d.length then false else true

/-- The zero-based start index computed by `Substring.Eval`:
`runeCount + start` for negative `start`, `start - 1` otherwise
(source lines computing `startIdx`). -/
def substringStartIdx (runeCount start : Int) : Int :=
  if start < 0 then runeCount + start else start - 1

/-- Embedding of the tail of `Substring.Eval` after both `start` and `length`
have been obtained as `int64` values: bounds checks, clamping and slicing.
`int64` additions wrap via `wrap64`; the final `text[startIdx:startIdx+length]`
slice performs the Go runtime bounds check `0 <= low <= high <= len` and
panics (`Err.sliceOutOfRange`) when it fails. -/
def substringTail (text : List Char) (start length : Int) : Except Err Value :=
  let runeCount : Int := text.length
  let startIdx : Int := wrap64 (substringStartIdx runeCount start)
  if startIdx < 0 ∨ startIdx ≥ runeCount ∨ length ≤ 0 then
    .ok (.vText "")
  else
    let length2 : Int := if wrap64 (startIdx + length) > runeCount then runeCount - startIdx else length
    let high : Int := wrap64 (startIdx + length2)
    if 0 ≤ startIdx ∧ startIdx ≤ high ∧ high ≤ runeCount then
      .ok (.vText (String.mk ((text.drop startIdx.toNat).take (high - startIdx).toNat)))
    else
      .error .sliceOutOfRange

/-- Embedding of `Substring.Eval` from the point where the codepoints of the
string argument are known: evaluate and convert `start`, then the optional
`length` (defaulting to the full codepoint count), then slice. Child results
are passed in already-sequenced form; each is consumed exactly in source
order. -/
def substringWithText (text : List Char) (startRes : Except Err Value)
    (lenRes : Option (Except Err Value)) : Except Err Value :=
  match startRes with
  | .error e => .error e
  | .ok sv =>
    match int64Convert sv with
    | .error e => .error e
    | .ok start =>
      match lenRes with
      | some lr =>
        match lr with
        | .error e => .error e
        | .ok lv =>
          match int64Convert lv with
          | .error e => .error e
          | .ok length => substringTail text start length
      | none => substringTail text start (text.length : Int)

/-- Embedding of `Substring.Eval`: evaluate `str` first; `nil` short-circuits
to `nil` without touching `start`/`length`; text and byte sequences become
codepoint lists; any other value is an `ErrInvalidType` failure. -/
def substringEval (strRes startRes : Except Err Value)
    (lenRes : Option (Except Err Value)) : Except Err Value :=
  match strRes with
  | .error e => .error e
  | .ok .vNull => .ok .vNull
  | .ok (.vText s) => substringWithText s.data startRes lenRes
  | .ok (.vBytes bs) => substringWithText (bytesToRunes bs) startRes lenRes
  | .ok v => .error (.invalidType (typeName v))

/-- Expression trees of the sources: leaf literals, an always-failing leaf
(standing for an arbitrary child whose evaluation fails), an unresolved column
reference, and the three built-in functions. `Substring` keeps its two
arities as two constructors (`len` nil or set in the Go struct). -/
inductive Expr where
  | lit (v : Value)
  | failing (e : Err)
  | unresolvedCol (n : String)
  | isBinaryE (child : Expr)
  | substr2 (str start : Expr)
  | substr3 (str start len : Expr)
  | yearE (child : Expr)
deriving DecidableEq

/-- Embedding of `func NewSubstring(args ...sql.Expression)`: a switch on the
argument count accepting exactly 2 or 3 arguments, anything else failing with
`sql.ErrInvalidArgumentNumber.New("2 or 3", len(args))`. -/
def newSubstring (args : List Expr) : Except Err Expr :=
  match args with
  | [str, start] => .ok (.substr2 str start)
  | [str, start, len] => .ok (.substr3 str start len)
  | _ => .error (.invalidArgNumber "2 or 3" args.length)

/-- Evaluation of an expression against a row, combining the per-function
embeddings (`IsBinary.Eval`, `Substring.Eval`, `Year.Eval`). -/
def evalExpr : Expr → Row → Except Err Value
  | .lit v, _ => .ok v
  | .failing e, _ => .error e
  | .unresolvedCol n, _ => .error (.unresolvedField n)
  | .isBinaryE c, row =>
    match evalExpr c row with
    | .error e => .error e
    | .ok .vNull => .ok (.vBool false)
    | .ok v =>
      match blobConvert v with
      | .error e => .error e
      | .ok bs => .ok (.vBool (isBinaryData bs))
  | .substr2 str start, row => substringEval (evalExpr str row) (evalExpr start row) none
  | .substr3 str start len, row =>
    substringEval (evalExpr str row) (evalExpr start row) (some (evalExpr len row))
  | .yearE c, row =>
    match evalExpr c row with
    | .error e => .error e
    | .ok .vNull => .ok .vNull
    | .ok v =>
      match dateConvert v with
      | .error e => .error e
      | .ok t => .ok (.vInt (toInt32 t.year))

/-- Embedding of `TransformUp` for expressions: rebuild bottom-up, applying
`f` to every rebuilt node; leaves just receive `f`. The `Substring` cases
mirror the source, which rebuilds through `NewSubstring` with the transformed
children and discards the error (unreachable, since the arity is preserved). -/
def transformUp (f : Expr → Expr) : Expr → Expr
  | .lit v => f (.lit v)
  | .failing e => f (.failing e)
  | .unresolvedCol n => f (.unresolvedCol n)
  | .isBinaryE c => f (.isBinaryE (transformUp f c))
  | .substr2 str start =>
    f (match newSubstring [transformUp f str, transformUp f start] with
       | .ok sub => sub
       | .error _ => .lit .vNull)
  | .substr3 str start len =>
    f (match newSubstring [transformUp f str, transformUp f start, transformUp f len] with
       | .ok sub => sub
       | .error _ => .lit .vNull)
  | .yearE c => f (.yearE (transformUp f c))

/-- `Resolved()` for expressions. The `Substring` cases embed the source
`func (Substring) Resolved() bool { return true }`, which is unconditional.
Unary functions delegate to the child (the `UnaryExpression` embedding, whose
code is outside the sources; modelled from the spec: true once every free
reference in the subtree is bound). -/
def exprResolved : Expr → Bool
  | .lit _ => true
  | .failing _ => true
  | .unresolvedCol _ => false
  | .isBinaryE c => exprResolved c
  | .substr2 _ _ => true
  | .substr3 _ _ _ => true
  | .yearE c => exprResolved c

/-- Plan trees: leaf tables (whose iterators yield a fixed row list), a leaf
whose `RowIter` acquisition fails, and the binary `CrossJoin` node. -/
inductive Node where
  | table (rows : List Row)
  | tableAcqFail (e : Err)
  | crossJoin (left right : Node)
deriving DecidableEq

/-- Embedding of `CrossJoin.TransformUp`:
`f(NewCrossJoin(left.TransformUp(f), right.TransformUp(f)))`; leaves invoke
`f` directly. -/
def nodeTransformUp (f : Node → Node) : Node → Node
  | .table rows => f (.table rows)
  | .tableAcqFail e => f (.tableAcqFail e)
  | .crossJoin l r => f (.crossJoin (nodeTransformUp f l) (nodeTransformUp f r))

/-- The mutable state of `crossJoinIterator`: the two child iterators (each a
deterministic, list-backed row source: the remaining rows it will yield before
end-of-stream), the buffered right rows, the index into the buffer, and the
held left row. -/
structure CJState where
  li : List Row
  ri : List Row
  rightRows : List Row
  index : Nat
  leftRow : Option Row
deriving DecidableEq

/-- Embedding of `crossJoinIterator.fillRows`: drain the right iterator,
appending every row it yields to `rightRows`, until it reports end-of-stream
(a list-backed iterator always ends with `io.EOF`, so the non-EOF error branch
of `Next` is not taken). -/
def fillRows (s : CJState) : CJState :=
  { s with rightRows := s.rightRows ++ s.ri, ri := [] }

/-- One `Next()` outcome of the cross-join iterator: a row, or end-of-stream. -/
inductive CJOut where
  | row (r : Row)
  | eof
deriving DecidableEq

/-- The shared tail of `crossJoinIterator.Next` once a left row is held:
`row := append(i.leftRow, i.rightRows[i.index]...)`, then advance the index,
resetting it and clearing the left row when the buffer is exhausted. -/
def cjEmit (s : CJState) (lr : Row) : CJOut × CJState :=
  let row := lr ++ s.rightRows.getD s.index []
  let index := s.index + 1
  if index ≥ s.rightRows.length then
    (.row row, { s with index := 0, leftRow := none })
  else
    (.row row, { s with index := index, leftRow := some lr })

/-- Embedding of `crossJoinIterator.Next`: on an empty buffer, fill it from
the right iterator and report end-of-stream if it is still empty; otherwise
pull a left row if none is held (end-of-stream when the left iterator is
exhausted), then emit the concatenation at the current index. -/
def cjNext (s : CJState) : CJOut × CJState :=
  let s := if s.rightRows.isEmpty then fillRows s else s
  if s.rightRows.isEmpty then
    (.eof, s)
  else
    match s.leftRow with
    | some lr => cjEmit s lr
    | none =>
      match s.li with
      | [] => (.eof, s)
      | lr :: rest => cjEmit { s with li := rest, index := 0, leftRow := some lr } lr

/-- Pull up to `fuel` rows from the cross-join iterator, stopping at the first
end-of-stream. -/
def cjRun : Nat → CJState → List Row
  | 0, _ => []
  | fuel + 1, s =>
    match cjNext s with
    | (.row r, s2) => r :: cjRun fuel s2
    | (.eof, _) => []

/-- The iterator value built by `CrossJoin.RowIter` from the two child
iterators: `&crossJoinIterator{li: li, ri: ri}` with zero-valued buffer,
index and held row. -/
def crossJoinRowIterInit (li ri : List Row) : CJState :=
  { li := li, ri := ri, rightRows := [], index := 0, leftRow := none }

/-- The left-major cartesian product of two row lists: for each left row, in
order, every right row, in order, concatenated left-then-right. -/
def crossRows (L R : List Row) : List Row :=
  L.flatMap (fun l => R.map (fun r => l ++ r))

/-- Observable resource events on the two child iterators of a cross join. -/
inductive IterEvent where
  | openedLeft
  | openedRight
  | closedLeft
  | closedRight
deriving DecidableEq

/-- Embedding of `CrossJoin.RowIter` over the outcomes of the two child
`RowIter()` calls, recording the resource events that occur: the left child is
opened first and a failure there opens nothing; a failure opening the right
child returns that error with the left iterator still open (the source
performs no close on this path); on success both are open and the combined
iterator is returned. -/
def crossJoinRowIterAcq (lres rres : Except Err (List Row)) :
    Except Err CJState × List IterEvent :=
  match lres with
  | .error e => (.error e, [])
  | .ok li =>
    match rres with
    | .error e => (.error e, [.openedLeft])
    | .ok ri => (.ok (crossJoinRowIterInit li ri), [.openedLeft, .openedRight])

/-- Embedding of `crossJoinIterator.Close` over the outcomes of the two child
`Close()` calls (`none` = success): close the left child first; on failure
still close the right child and return the left error; otherwise return the
right child's outcome. The event list records every close attempted, in
order. -/
def crossJoinIteratorClose (lClose rClose : Option Err) :
    Option Err × List IterEvent :=
  match lClose with
  | some err => (some err, [.closedLeft, .closedRight])
  | none => (rClose, [.closedLeft, .closedRight])

/-- The substring semantics in the words of the specification, for an explicit
requested length: zero-based start index `codepointCount + start` for negative
`start` and `start - 1` otherwise; empty text when the start index is out of
range or the length is not positive; length clamped (with unbounded integer
arithmetic) so the slice ends at the codepoint count; result the codepoints of
`[startIdx, startIdx + length)`. -/
def substringClaimCore (text : List Char) (start length : Int) : String :=
  let n : Int := text.length
  let startIdx := substringStartIdx n start
  if startIdx < 0 ∨ startIdx ≥ n ∨ length ≤ 0 then ""
  else
    let length2 := if startIdx + length > n then n - startIdx else length
    String.mk ((text.drop startIdx.toNat).take length2.toNat)

/-- The substring semantics in the words of the specification, with the length
argument optional: when absent it defaults to the remaining codepoint count
from the start index. -/
def substringClaim (text : List Char) (start : Int) (len : Option Int) : String :=
  substringClaimCore text start
    (match len with
     | some l => l
     | none => (text.length : Int) - substringStartIdx (text.length : Int) start)

/-- The `Substring` expression over literal children used to state claims:
2-child for an absent length, 3-child otherwise. -/
def substrOfLits (s : String) (start : Int) (len : Option Int) : Expr :=
  match len with
  | none => .substr2 (.lit (.vText s)) (.lit (.vInt start))
  | some l => .substr3 (.lit (.vText s)) (.lit (.vInt start)) (.lit (.vInt l))

/-- Whether an evaluation outcome is an arity error
(`sql.ErrInvalidArgumentNumber`). -/
def isArityRes : Except Err Value → Bool
  | .error (.invalidArgNumber _ _) => true
  | _ => false

end GoMysql

deriving instance DecidableEq for Except

namespace GoMysql

theorem substringTail_not_arity (t : List Char) (a b : Int) :
    isArityRes (substringTail t a b) = false := by
  unfold substringTail
  dsimp only
  split
  · rfl
  · split <;> split <;> rfl

theorem substringWithText_not_arity (t : List Char) (sr : Except Err Value)
    (lr : Option (Except Err Value)) (h1 : isArityRes sr = false)
    (h2 : ∀ x, lr = some x → isArityRes x = false) :
    isArityRes (substringWithText t sr lr) = false := by
  rcases sr with e | sv
  · exact h1
  · rcases sv with _ | b | i | s | bs | ts
    · rfl
    · rfl
    · rcases lr with _ | x
      · exact substringTail_not_arity t i _
      · rcases x with e | xv
        · exact h2 _ rfl
        · rcases xv with _ | b | j | s | bs | ts
          · rfl
          · rfl
          · exact substringTail_not_arity t i j
          · rfl
          · rfl
          · rfl
    · rfl
    · rfl
    · rfl

theorem substringEval_not_arity (sr str2 : Except Err Value)
    (lr : Option (Except Err Value)) (h0 : isArityRes sr = false)
    (h1 : isArityRes str2 = false)
    (h2 : ∀ x, lr = some x → isArityRes x = false) :
    isArityRes (substringEval sr str2 lr) = false := by
  rcases sr with e | sv
  · exact h0
  · rcases sv with _ | b | i | s | bs | ts
    · rfl
    · rfl
    · rfl
    · exact substringWithText_not_arity _ _ _ h1 h2
    · exact substringWithText_not_arity _ _ _ h1 h2
    · rfl

theorem transformUp_id_expr (e : Expr) : transformUp (fun x => x) e = e := by
  induction e with
  | lit v => rfl
  | failing e => rfl
  | unresolvedCol n => rfl
  | isBinaryE c ih => simp only [transformUp, ih]
  | substr2 s st ih1 ih2 => simp only [transformUp, newSubstring, ih1, ih2]
  | substr3 s st l ih1 ih2 ih3 => simp only [transformUp, newSubstring, ih1, ih2, ih3]
  | yearE c ih => simp only [transformUp, ih]

theorem nodeTransformUp_id (n : Node) : nodeTransformUp (fun x => x) n = n := by
  induction n with
  | table rows => rfl
  | tableAcqFail e => rfl
  | crossJoin l r ih1 ih2 => simp only [nodeTransformUp, ih1, ih2]

/-- C7: applying `TransformUp` with the identity function to any expression
tree or plan tree returns a tree structurally equal to the original — same
node variants, same children in the same order, and the same arity (a 2-child
`Substring` stays 2-child, a 3-child one stays 3-child). -/
theorem transformUp_identity_spec :
    (∀ e : Expr, transformUp (fun x => x) e = e) ∧
    (∀ n : Node, nodeTransformUp (fun x => x) n = n) :=
  ⟨transformUp_id_expr, nodeTransformUp_id⟩

/-- C4: `crossJoinIterator.Close` attempts the left close first and the right
close second (each exactly once, left before right, as the event list
records); a failing left close still lets the right close run and its error is
the one returned, while a successful left close returns the right close's
outcome. -/
theorem crossJoinIterator_close_spec (lClose rClose : Option Err) :
    crossJoinIteratorClose lClose rClose =
      ((match lClose with
        | some e => some e
        | none => rClose),
       [.closedLeft, .closedRight]) := by
  cases lClose <;> rfl

/-- C8 (divergence witness): when the right child's `RowIter` fails after the
left child's iterator was already obtained, `CrossJoin.RowIter` surfaces the
error without ever closing the left iterator — the event trace records the
left open and no left close, so the left iterator is leaked, contradicting the
resource discipline the specification states. -/
theorem crossJoin_rowIter_right_failure_leaks_left :
    crossJoinRowIterAcq (.ok ([] : List Row)) (.error .conversion) =
      (.error .conversion, [.openedLeft]) ∧
    IterEvent.closedLeft ∉ (crossJoinRowIterAcq (.ok ([] : List Row)) (.error .conversion)).2 := by
  exact ⟨rfl, by decide⟩

/-- C9 (divergence witness): `Substring.Resolved()` returns `true` even when a
child expression is an unbound column reference, contradicting the contract
that `Resolved()` is true iff every free reference in the subtree is bound. -/
theorem substring_resolved_ignores_children :
    exprResolved (.substr2 (.unresolvedCol "c") (.lit (.vInt 1))) = true ∧
    exprResolved (.unresolvedCol "c") = false := by
  exact ⟨rfl, rfl⟩

/-- C10: when the `str` child of `Substring` evaluates to `nil`, evaluation
returns `nil` without consulting the `start` or `length` children — the result
is `nil` for every `start`/`length` child expression, including ones whose
evaluation would fail. -/
theorem substring_nil_str_short_circuits (strE startE lenE : Expr) (row : Row)
    (h : evalExpr strE row = .ok .vNull) :
    evalExpr (.substr2 strE startE) row = .ok .vNull ∧
    evalExpr (.substr3 strE startE lenE) row = .ok .vNull := by
  refine ⟨?_, ?_⟩ <;> · show substringEval (evalExpr strE row) _ _ = .ok .vNull
                        rw [h]
                        rfl

theorem substring_nil_str_short_circuits_witness :
    evalExpr (.substr2 (.lit .vNull) (.failing .conversion)) [] = .ok .vNull ∧
    evalExpr (.substr3 (.lit .vNull) (.failing .conversion) (.failing (.childFail 0))) [] =
      .ok .vNull :=
  substring_nil_str_short_circuits (.lit .vNull) (.failing .conversion)
    (.failing (.childFail 0)) [] rfl

/-- C5: `NewSubstring` succeeds exactly on 2 or 3 arguments (building the
2-child and 3-child variants respectively), fails with the arity error
`ErrInvalidArgumentNumber("2 or 3", n)` on any other count — a construction-
time check, before any evaluation — and evaluation of a constructed
`Substring` never produces an arity error of its own: an arity error can only
appear at evaluation time if a child returned one. -/
theorem newSubstring_arity_spec :
    (∀ s st : Expr, newSubstring [s, st] = .ok (.substr2 s st)) ∧
    (∀ s st l : Expr, newSubstring [s, st, l] = .ok (.substr3 s st l)) ∧
    (∀ args : List Expr, args.length ≠ 2 → args.length ≠ 3 →
      newSubstring args = .error (.invalidArgNumber "2 or 3" args.length)) ∧
    (∀ (s st : Expr) (row : Row),
      isArityRes (evalExpr s row) = false → isArityRes (evalExpr st row) = false →
      isArityRes (evalExpr (.substr2 s st) row) = false) ∧
    (∀ (s st l : Expr) (row : Row),
      isArityRes (evalExpr s row) = false → isArityRes (evalExpr st row) = false →
      isArityRes (evalExpr l row) = false →
      isArityRes (evalExpr (.substr3 s st l) row) = false) := by
  refine ⟨fun s st => rfl, fun s st l => rfl, ?_, ?_, ?_⟩
  · intro args h2 h3
    match args with
    | [] => rfl
    | [a] => rfl
    | [a, b] => exact absurd rfl h2
    | [a, b, c] => exact absurd rfl h3
    | a :: b :: c :: d :: rest => rfl
  · intro s st row hs hst
    exact substringEval_not_arity _ _ _ hs hst (fun x hx => by cases hx)
  · intro s st l row hs hst hl
    exact substringEval_not_arity _ _ _ hs hst
      (fun x hx => by cases hx; exact hl)

theorem newSubstring_arity_spec_witness :
    newSubstring [Expr.lit .vNull] = .error (.invalidArgNumber "2 or 3" 1) ∧
    isArityRes (evalExpr (.substr2 (.lit (.vText "a")) (.lit (.vInt 1))) []) = false :=
  ⟨newSubstring_arity_spec.2.2.1 [Expr.lit .vNull] (by decide) (by decide),
   newSubstring_arity_spec.2.2.2.1 (.lit (.vText "a")) (.lit (.vInt 1)) [] rfl rfl⟩

theorem isBinaryData_eq_mem (bs : List Nat) :
    isBinaryData bs = decide ((0 : Nat) ∈ bs.take sniffLen) := by
  unfold isBinaryData
  have hd : (if bs.length > sniffLen then bs.take sniffLen else bs) = bs.take sniffLen := by
    split
    · rfl
    · exact (List.take_of_length_le (by omega)).symm
  rw [hd]
  by_cases h : (0 : Nat) ∈ bs.take sniffLen
  · have hlt : (bs.take sniffLen).indexOf 0 < (bs.take sniffLen).length :=
      List.indexOf_lt_length.2 h
    rw [if_neg (Nat.ne_of_lt hlt)]
    simp [h]
  · have heq : (bs.take sniffLen).indexOf 0 = (bs.take sniffLen).length :=
      List.indexOf_eq_length.2 h
    rw [if_pos heq]
    simp [h]

/-- C3: `IsBinary.Eval` of a `nil` child value is boolean `false`; for a
non-`nil` value whose Blob conversion succeeds with byte sequence `bs`, the
result is `true` iff a zero byte occurs among the first 8000 (`sniffLen`)
bytes of `bs` — a zero byte first occurring at position 8000 or later is not
detected. -/
theorem isBinary_eval_spec (v : Value) (bs : List Nat) (row : Row)
    (hconv : blobConvert v = .ok bs) :
    evalExpr (.isBinaryE (.lit .vNull)) row = .ok (.vBool false) ∧
    (v ≠ .vNull →
      evalExpr (.isBinaryE (.lit v)) row = .ok (.vBool (decide ((0 : Nat) ∈ bs.take sniffLen)))) := by
  refine ⟨rfl, fun hv => ?_⟩
  rcases v with _ | b | i | s | bs2 | ts
  · exact absurd rfl hv
  · exact absurd hconv (by simp [blobConvert])
  · exact absurd hconv (by simp [blobConvert])
  · have hb : (s.toUTF8.toList.map (fun b => b.toNat)) = bs := by
      simpa [blobConvert] using hconv
    simp only [evalExpr, blobConvert]
    rw [hb, isBinaryData_eq_mem]
  · have hb : bs2 = bs := by simpa [blobConvert] using hconv
    simp only [evalExpr, blobConvert]
    rw [hb, isBinaryData_eq_mem]
  · exact absurd hconv (by simp [blobConvert])

theorem isBinary_eval_spec_witness :
    evalExpr (.isBinaryE (.lit (.vBytes [1, 0, 2]))) [] =
      .ok (.vBool (decide ((0 : Nat) ∈ ([1, 0, 2] : List Nat).take sniffLen))) :=
  (isBinary_eval_spec (.vBytes [1, 0, 2]) [1, 0, 2] [] rfl).2 (by decide)

/-- C6: `Year.Eval` of a `nil` child value is `nil`; for a value whose Date
conversion succeeds with timestamp `t`, the result is the calendar year of `t`
as a signed 32-bit integer; when the conversion of a non-`nil` value fails,
that conversion error is the result. -/
theorem year_eval_spec (v : Value) (row : Row) :
    evalExpr (.yearE (.lit .vNull)) row = .ok .vNull ∧
    (∀ t, dateConvert v = .ok t →
      evalExpr (.yearE (.lit v)) row = .ok (.vInt (toInt32 t.year))) ∧
    (v ≠ .vNull → ∀ e, dateConvert v = .error e →
      evalExpr (.yearE (.lit v)) row = .error e) := by
  refine ⟨rfl, ?_, ?_⟩
  · intro t ht
    rcases v with _ | b | i | s | bs | ts <;> simp [dateConvert] at ht
    obtain rfl := ht
    rfl
  · intro hv e he
    rcases v with _ | b | i | s | bs | ts
    · exact absurd rfl hv
    · obtain rfl : Err.conversion = e := by simpa [dateConvert] using he
      rfl
    · obtain rfl : Err.conversion = e := by simpa [dateConvert] using he
      rfl
    · obtain rfl : Err.conversion = e := by simpa [dateConvert] using he
      rfl
    · obtain rfl : Err.conversion = e := by simpa [dateConvert] using he
      rfl
    · exact absurd he (by simp [dateConvert])

theorem year_eval_spec_witness :
    evalExpr (.yearE (.lit (.vDate ⟨2021⟩))) [] = .ok (.vInt (toInt32 2021)) ∧
    evalExpr (.yearE (.lit (.vText "not a date"))) [] = .error .conversion :=
  ⟨(year_eval_spec (.vDate ⟨2021⟩) []).2.1 ⟨2021⟩ rfl,
   (year_eval_spec (.vText "not a date") []).2.2 (by decide) .conversion rfl⟩

theorem crossRows_nil (R : List Row) : crossRows [] R = [] := rfl

theorem crossRows_cons (l : Row) (L R : List Row) :
    crossRows (l :: L) R = R.map (fun r => l ++ r) ++ crossRows L R := by
  simp [crossRows]

theorem crossRows_nil_right (L : List Row) : crossRows L [] = [] := by
  induction L with
  | nil => rfl
  | cons l L ih => simpa [crossRows_cons] using ih

theorem crossRows_length (L R : List Row) :
    (crossRows L R).length = L.length * R.length := by
  induction L with
  | nil => simp [crossRows_nil]
  | cons l L ih =>
    simp only [crossRows_cons, List.length_append, List.length_map, ih, List.length_cons]
    ring

theorem cjRun_congr_step (n : Nat) (s t : CJState) (h : cjNext s = cjNext t) :
    cjRun (n + 1) s = cjRun (n + 1) t := by
  simp only [cjRun, h]

theorem cjRun_product : ∀ (fuel : Nat) (L R : List Row) (i : Nat) (lr : Option Row),
    R ≠ [] → (∀ l, lr = some l → i < R.length) →
    cjRun fuel ⟨L, [], R, i, lr⟩ =
      ((match lr with
        | some l => (R.drop i).map (fun r => l ++ r)
        | none => ([] : List Row)) ++ crossRows L R).take fuel := by
  intro fuel
  induction fuel with
  | zero => intro L R i lr hR hi; rfl
  | succ n ih =>
    intro L R i lr hR hi
    cases R with
    | nil => exact absurd rfl hR
    | cons r0 R' =>
      cases lr with
      | some l =>
        have hi' : i < (r0 :: R').length := hi l rfl
        by_cases hc : i + 1 ≥ (r0 :: R').length
        · have hnext : cjNext ⟨L, [], r0 :: R', i, some l⟩ =
              (.row (l ++ (r0 :: R').getD i []), ⟨L, [], r0 :: R', 0, none⟩) := by
            show cjEmit ⟨L, [], r0 :: R', i, some l⟩ l = _
            unfold cjEmit
            dsimp only
            rw [if_pos hc]
          have hd : (r0 :: R').drop (i + 1) = [] := List.drop_eq_nil_of_le (by omega)
          rw [show cjRun (n + 1) ⟨L, [], r0 :: R', i, some l⟩ =
                (l ++ (r0 :: R').getD i []) :: cjRun n ⟨L, [], r0 :: R', 0, none⟩ from by
              simp only [cjRun, hnext],
            ih L (r0 :: R') 0 none (by simp) (fun l h => nomatch h),
            List.drop_eq_getElem_cons hi', List.getD_eq_getElem _ _ hi']
          simp [hd, List.take_succ_cons]
        · have hnext : cjNext ⟨L, [], r0 :: R', i, some l⟩ =
              (.row (l ++ (r0 :: R').getD i []), ⟨L, [], r0 :: R', i + 1, some l⟩) := by
            show cjEmit ⟨L, [], r0 :: R', i, some l⟩ l = _
            unfold cjEmit
            dsimp only
            rw [if_neg hc]
          rw [show cjRun (n + 1) ⟨L, [], r0 :: R', i, some l⟩ =
                (l ++ (r0 :: R').getD i []) :: cjRun n ⟨L, [], r0 :: R', i + 1, some l⟩ from by
              simp only [cjRun, hnext],
            ih L (r0 :: R') (i + 1) (some l) (by simp) (fun l h => by omega),
            List.drop_eq_getElem_cons hi', List.getD_eq_getElem _ _ hi']
          simp [List.take_succ_cons]
      | none =>
        cases L with
        | nil => rfl
        | cons l L' =>
          by_cases hc : 0 + 1 ≥ (r0 :: R').length
          · have hnext : cjNext ⟨l :: L', [], r0 :: R', i, none⟩ =
                (.row (l ++ r0), ⟨L', [], r0 :: R', 0, none⟩) := by
              show cjEmit ⟨L', [], r0 :: R', 0, some l⟩ l = _
              unfold cjEmit
              dsimp only
              rw [if_pos hc]
              rfl
            have hR' : R' = [] := by
              cases R' with
              | nil => rfl
              | cons a b => simp at hc
            subst hR'
            rw [show cjRun (n + 1) ⟨l :: L', [], [r0], i, none⟩ =
                  (l ++ r0) :: cjRun n ⟨L', [], [r0], 0, none⟩ from by
                simp only [cjRun, hnext],
              ih L' [r0] 0 none (by simp) (fun l h => nomatch h)]
            simp [crossRows_cons, List.take_succ_cons]
          · have hnext : cjNext ⟨l :: L', [], r0 :: R', i, none⟩ =
                (.row (l ++ r0), ⟨L', [], r0 :: R', 1, some l⟩) := by
              show cjEmit ⟨L', [], r0 :: R', 0, some l⟩ l = _
              unfold cjEmit
              dsimp only
              rw [if_neg hc]
              rfl
            rw [show cjRun (n + 1) ⟨l :: L', [], r0 :: R', i, none⟩ =
                  (l ++ r0) :: cjRun n ⟨L', [], r0 :: R', 1, some l⟩ from by
                simp only [cjRun, hnext],
              ih L' (r0 :: R') 1 (some l) (by simp) (fun l h => by omega)]
            simp [crossRows_cons, List.take_succ_cons, List.drop_one]

/-- C1: the iterator built by `CrossJoin.RowIter` from child iterators that
yield the row lists `L` and `R` emits exactly the left-major cartesian product
— for each left row in order, every right row in order, concatenated
left-then-right — and nothing after it (any fuel collects at most the product,
a prefix of it when the fuel is smaller); the product has exactly
`|L| * |R|` rows, so the output is empty whenever the right side is empty. -/
theorem crossJoin_rowIter_emits_left_major_product (L R : List Row) (fuel : Nat) :
    cjRun fuel (crossJoinRowIterInit L R) = (crossRows L R).take fuel ∧
    (crossRows L R).length = L.length * R.length ∧
    crossJoinRowIterAcq (.ok L) (.ok R) =
      (.ok (crossJoinRowIterInit L R), [.openedLeft, .openedRight]) := by
  refine ⟨?_, crossRows_length L R, rfl⟩
  cases R with
  | nil =>
    have hrun : cjRun fuel (crossJoinRowIterInit L []) = [] := by
      cases fuel
      · rfl
      · rfl
    rw [hrun, crossRows_nil_right]
    simp
  | cons r0 R' =>
    cases fuel with
    | zero => rfl
    | succ n =>
      have hstep : cjNext (crossJoinRowIterInit L (r0 :: R')) =
          cjNext ⟨L, [], r0 :: R', 0, none⟩ := rfl
      rw [cjRun_congr_step n _ _ hstep,
        cjRun_product (n + 1) L (r0 :: R') 0 none (by simp) (fun l h => nomatch h)]
      simp

theorem wrap64_eq_self (i : Int) (h1 : -(2 ^ 63) ≤ i) (h2 : i < 2 ^ 63) :
    wrap64 i = i := by
  unfold wrap64
  omega

theorem substringStartIdx_bounds (n start : Int) (hn0 : 0 ≤ n)
    (hs1 : -(2 ^ 63) ≤ start) (hs2 : start < 2 ^ 63) (hn : n < 2 ^ 63) :
    -(2 ^ 63) ≤ substringStartIdx n start ∧ substringStartIdx n start < 2 ^ 63 := by
  unfold substringStartIdx
  split <;> omega

theorem substringTail_eq_claim (text : List Char) (start length : Int)
    (hs1 : -(2 ^ 63) ≤ start) (hs2 : start < 2 ^ 63)
    (hn : ((text.length : Int)) < 2 ^ 63)
    (hov : 0 ≤ substringStartIdx (text.length : Int) start →
      substringStartIdx (text.length : Int) start < (text.length : Int) →
      substringStartIdx (text.length : Int) start + length < 2 ^ 63) :
    substringTail text start length =
      .ok (.vText (substringClaimCore text start length)) := by
  have hn0 : (0 : Int) ≤ (text.length : Int) := Int.ofNat_nonneg _
  obtain ⟨hb1, hb2⟩ := substringStartIdx_bounds (text.length : Int) start hn0 hs1 hs2 hn
  have hst : wrap64 (substringStartIdx (text.length : Int) start) =
      substringStartIdx (text.length : Int) start := wrap64_eq_self _ hb1 hb2
  unfold substringTail substringClaimCore
  dsimp only
  rw [hst]
  by_cases hg : substringStartIdx (text.length : Int) start < 0 ∨
      substringStartIdx (text.length : Int) start ≥ (text.length : Int) ∨ length ≤ 0
  · rw [if_pos hg, if_pos hg]
  · rw [if_neg hg, if_neg hg]
    push_neg at hg
    obtain ⟨hg1, hg2, hg3⟩ := hg
    have hov' := hov hg1 hg2
    have hsum : wrap64 (substringStartIdx (text.length : Int) start + length) =
        substringStartIdx (text.length : Int) start + length :=
      wrap64_eq_self _ (by omega) hov'
    rw [hsum]
    by_cases hc : substringStartIdx (text.length : Int) start + length > (text.length : Int)
    · simp only [if_pos hc]
      rw [show substringStartIdx (text.length : Int) start +
            ((text.length : Int) - substringStartIdx (text.length : Int) start) =
            (text.length : Int) from by ring]
      rw [wrap64_eq_self _ (by omega) hn]
      rw [if_pos ⟨hg1, le_of_lt hg2, le_refl _⟩]
    · simp only [if_neg hc]
      rw [hsum]
      rw [if_pos ⟨hg1, by omega, by omega⟩]
      rw [show substringStartIdx (text.length : Int) start + length -
            substringStartIdx (text.length : Int) start = length from by ring]

theorem substringClaimCore_default (text : List Char) (start : Int) :
    substringClaimCore text start
        ((text.length : Int) - substringStartIdx (text.length : Int) start) =
      substringClaimCore text start (text.length : Int) := by
  unfold substringClaimCore substringStartIdx
  dsimp only
  split_ifs <;>
    first
      | rfl
      | (exfalso; omega)
      | (congr 2 <;> omega)

/-- C2 (amended): for a text value, a 64-bit `start`, and an optional length,
`Substring.Eval` returns (never `nil`) the text given by the specification's
rule — codepoints `[startIdx, startIdx + length)` with
`startIdx = start - 1` for `start ≥ 0` and `codepointCount + start`
otherwise, the length defaulting to the remaining codepoint count and clamped
to the codepoint count, and the empty string when `startIdx < 0`,
`startIdx ≥ codepointCount`, or `length ≤ 0` — provided the `int64` sum
`startIdx + length` does not overflow (`startIdx + length < 2^63`); the five
examples of the claim all hold. When the sum does overflow, the clamp test is
skipped on the wrapped negative sum and evaluation panics instead (see the
counterexample). -/
theorem substring_eval_matches_claim (s : String) (start : Int) (len : Option Int)
    (row : Row)
    (hs1 : -(2 ^ 63) ≤ start) (hs2 : start < 2 ^ 63)
    (hl : ∀ l, len = some l → -(2 ^ 63) ≤ l ∧ l < 2 ^ 63)
    (hn : ((s.data.length : Int)) < 2 ^ 63)
    (hov : 0 ≤ substringStartIdx (s.data.length : Int) start →
      substringStartIdx (s.data.length : Int) start < (s.data.length : Int) →
      substringStartIdx (s.data.length : Int) start +
        (match len with
         | some l => l
         | none => (s.data.length : Int)) < 2 ^ 63) :
    evalExpr (substrOfLits s start len) row =
      .ok (.vText (substringClaim s.data start len)) ∧
    evalExpr (substrOfLits "abcde" 2 (some 3)) [] = .ok (.vText "bcd") ∧
    evalExpr (substrOfLits "abcde" (-1) none) [] = .ok (.vText "e") ∧
    evalExpr (substrOfLits "abcde" (-2) (some 1)) [] = .ok (.vText "d") ∧
    evalExpr (substrOfLits "abcde" 0 (some 3)) [] = .ok (.vText "") ∧
    evalExpr (substrOfLits "abcde" 1 (some 100)) [] = .ok (.vText "abcde") := by
  refine ⟨?_, by decide, by decide, by decide, by decide, by decide⟩
  cases len with
  | none =>
    show substringTail s.data start ((s.data.length : Int)) =
      .ok (.vText (substringClaim s.data start none))
    unfold substringClaim
    rw [substringClaimCore_default]
    exact substringTail_eq_claim s.data start _ hs1 hs2 hn hov
  | some l =>
    show substringTail s.data start l = .ok (.vText (substringClaim s.data start (some l)))
    exact substringTail_eq_claim s.data start l hs1 hs2 hn hov

/-- C2 (counterexample): on `"abcde"` with `start = 2` and
`length = 2^63 - 1`, the `int64` addition `startIdx + length` overflows, the
clamp is skipped, and evaluation hits the Go slice-bounds panic — it does not
return the clamped text `"bcde"` that the claim's clamping rule requires for
these 64-bit inputs. -/
theorem substring_huge_length_panics :
    evalExpr (substrOfLits "abcde" 2 (some (2 ^ 63 - 1))) [] = .error .sliceOutOfRange ∧
    evalExpr (substrOfLits "abcde" 2 (some (2 ^ 63 - 1))) [] ≠ .ok (.vText "bcde") :=
  ⟨by decide, by decide⟩

theorem substring_eval_matches_claim_witness :
    evalExpr (substrOfLits "abcde" 2 (some 3)) [] =
      .ok (.vText (substringClaim "abcde".data 2 (some 3))) :=
  (substring_eval_matches_claim "abcde" 2 (some 3) [] (by decide) (by decide)
    (fun l h => by cases h; exact ⟨by decide, by decide⟩)
    (by decide) (fun h1 h2 => by decide)).1
